import Mathlib

/-!
Shallow embedding of `src/dups.py` (duplicate-file scanner): the
fingerprinting pipeline (`file_hash`, `collect_file_info`), the checkpoint
store (`save_file_info`, `verify_file_info`), the duplicate detector
(`find_duplicates_from_info`) and the resolution engine
(`handle_duplicates`), together with theorems settling the spec claims.

Python dictionaries are modelled as association lists in insertion order
(CPython dicts iterate in insertion order; assignment to an existing key
keeps its position, a new key is appended).  Filesystem and terminal I/O
are modelled by explicit function parameters, and mutations performed by
the resolution engine are collected in an effect list.
-/

namespace Dups

/-- One value of the checkpoint dictionary: the record built at
`src/dups.py` lines 91-96 (`name`, `hash`, `size`, `modified_time`). -/
structure FileInfo where
  name : String
  hash : String
  size : Nat
  modified_time : Int
deriving DecidableEq

/-- The ambient `os.path` functions used when a record is built:
`os.path.basename`, `os.path.getsize`, `os.path.getmtime`. -/
structure FileMeta where
  basename : String → String
  getsize : String → Nat
  getmtime : String → Int

/-- `file_hash` (lines 54-64): the file content is `none` when the file is
unreadable; `mmap.mmap(f.fileno(), 0, ...)` raises `ValueError` on a
zero-length file, the `except` catches it and the function returns `None`.
Otherwise the xxh64 digest of the bytes is returned; the digest function
`xxh` is an abstract parameter. -/
def file_hash (xxh : List Nat → String) (content : Option (List Nat)) :
    Option String :=
  match content with
  | none => none
  | some bytes => if bytes.isEmpty then none else some (xxh bytes)

/-- CPython dict assignment `d[k] = v`: overwrite the binding in place if
the key is present (a dict never holds a key twice), else append at the
end. -/
def dictInsert : List (String × FileInfo) → String → FileInfo →
    List (String × FileInfo)
  | [], k, v => [(k, v)]
  | e :: rest, k, v =>
    if e.1 == k then (k, v) :: rest else e :: dictInsert rest k v

/-- Merging one completed worker result (lines 89-97): a successful hash
adds `file_info_dict[file_path] = {name, hash, size, modified_time}`; a
`None` hash result leaves the dictionary unchanged. -/
def mergeStep (meta : FileMeta) (d : List (String × FileInfo))
    (r : String × Option String) : List (String × FileInfo) :=
  match r.2 with
  | some h =>
      dictInsert d r.1 ⟨meta.basename r.1, h, meta.getsize r.1, meta.getmtime r.1⟩
  | none => d

/-- The coordinator state: the in-memory dictionary and the content last
written to the temp file. -/
structure CollectState where
  info : List (String × FileInfo)
  temp : List (String × FileInfo)
deriving DecidableEq

/-- One iteration of the `as_completed` loop (lines 87-103): merge the
result, then save to the temp file when `len(file_info_dict) %
config['save_interval'] == 0`. -/
def processResult (meta : FileMeta) (K : Nat) (s : CollectState)
    (r : String × Option String) : CollectState :=
  let info := mergeStep meta s.info r
  if info.length % K == 0 then ⟨info, info⟩ else ⟨info, s.temp⟩

/-- The filter of line 84: only paths not already keys of the loaded
dictionary are submitted to `file_hash` workers. -/
def pendingPaths (filePaths : List String)
    (existing : List (String × FileInfo)) : List String :=
  filePaths.filter (fun p => !(existing.any (fun e => e.1 == p)))

/-- The multiset of per-path hash results the workers produce: one
`file_hash` call per pending path. -/
def hashResults (xxh : List Nat → String) (content : String → Option (List Nat))
    (paths : List String) : List (String × Option String) :=
  paths.map (fun p => (p, file_hash xxh (content p)))

/-- `collect_file_info` after the scan (lines 83-109): fold the completed
worker results (in their nondeterministic `as_completed` order, taken here
as the input list order) into the loaded dictionary with periodic saves,
then perform the final save of lines 106-107.  The initial temp-file
content equals the loaded dictionary (lines 71-73). -/
def collect_file_info (meta : FileMeta) (K : Nat)
    (existing : List (String × FileInfo))
    (completed : List (String × Option String)) : CollectState :=
  let s := completed.foldl (processResult meta K) ⟨existing, existing⟩
  ⟨s.info, s.info⟩

/-- The abstract filesystem consulted while verifying and resolving:
`os.path.exists`, and the `file_hash` outcome for a path (`none` when the
file cannot be read, the digest otherwise). -/
structure FS where
  pathExists : String → Bool
  fhash : String → Option String

/-- The two warning categories `verify_file_info` emits (lines 135, 137). -/
inductive VerifyReport where
  | hashChanged (p : String)
  | notFound (p : String)
deriving DecidableEq

/-- One iteration of the `verify_file_info` loop (lines 129-138): an
existing file is kept iff its recomputed hash equals the stored one
(Python's `None == stored` is `False`, modelled by `Option` equality);
otherwise the matching warning is appended. -/
def verifyStep (fs : FS) (acc : List (String × FileInfo) × List VerifyReport)
    (e : String × FileInfo) : List (String × FileInfo) × List VerifyReport :=
  if fs.pathExists e.1 then
    if fs.fhash e.1 == some e.2.hash then (acc.1 ++ [e], acc.2)
    else (acc.1, acc.2 ++ [VerifyReport.hashChanged e.1])
  else (acc.1, acc.2 ++ [VerifyReport.notFound e.1])

/-- `verify_file_info` (lines 125-139): returns the verified dictionary
together with the warnings logged along the way. -/
def verify_file_info (fs : FS) (d : List (String × FileInfo)) :
    List (String × FileInfo) × List VerifyReport :=
  d.foldl (verifyStep fs) ([], [])

/-- The observable behaviour of `save_file_info`: the directory warning of
lines 114-115 and the final JSON write of lines 117-118. -/
inductive SaveEvent where
  | warnDirectory (p : String)
  | write (path : String) (content : List (String × FileInfo))
deriving DecidableEq

/-- `os.path.join` for the one concrete use at line 116. -/
def joinPath (a b : String) : String := a ++ "/" ++ b

/-- `save_file_info` (lines 111-118): when `output_file` is an existing
directory, warn and fall back to `file_info_report.json` inside it; in
either case write the dictionary to the resulting path. -/
def save_file_info (isDir : String → Bool) (d : List (String × FileInfo))
    (output_file : String) : List SaveEvent :=
  if isDir output_file then
    [SaveEvent.warnDirectory output_file,
     SaveEvent.write (joinPath output_file "file_info_report.json") d]
  else [SaveEvent.write output_file d]

/-- The loop of `find_duplicates_from_info` (lines 146-152): `hashes` is
the accumulated hash → first-seen-path dictionary, updated only with
unseen hashes, so each hash occurs at most once and a prepend-and-lookup
association list is an exact model. -/
def findDupsAux (hashes : List (String × String)) :
    List (String × FileInfo) → List (String × String)
  | [] => []
  | (p, info) :: rest =>
    match hashes.lookup info.hash with
    | some fp => (p, fp) :: findDupsAux hashes rest
    | none => findDupsAux ((info.hash, p) :: hashes) rest

/-- `find_duplicates_from_info` (lines 141-161): every path whose hash was
already seen is paired with the first-seen path of that hash. -/
def find_duplicates_from_info (d : List (String × FileInfo)) :
    List (String × String) :=
  findDupsAux [] d

/-- Python `str.strip()` (whitespace on both ends). -/
def pyStrip (s : String) : String :=
  ⟨((s.data.dropWhile Char.isWhitespace).reverse.dropWhile
      Char.isWhitespace).reverse⟩

/-- Python `str.lower()`, character by character. -/
def pyLower (s : String) : String :=
  ⟨s.data.map Char.toLower⟩

/-- The filesystem mutations the resolution engine can attempt:
`os.remove`, `os.makedirs`, `shutil.move`. -/
inductive FsOp where
  | remove (p : String)
  | makedirs (p : String)
  | move (src dst : String)
deriving DecidableEq

/-- The abstract action selector behind every `input()` call of
`handle_duplicates`: the raw reply to the group-level prompt for a
directory, the raw reply to the pair-level prompt for a pair, and the
target-directory replies to the two move prompts. -/
structure Selector where
  groupAction : String → String
  pairAction : String × String → String
  groupMoveTarget : String → String
  pairMoveTarget : String × String → String

/-- The per-pair branch of `handle_duplicates` (lines 204-249, `action ==
'i'`), returning the list of attempted filesystem mutations.  The raw
reply is normalised by `.strip().lower()` (line 207).  The source tests
`individual_action == 'd'` at both lines 209 and 217 and `== 'm'` at both
lines 225 and 236, so the second branch of each pair is kept here exactly
as written: it is dead code. -/
def handlePair (fs : FS) (sel : Selector) (dup : String × String) :
    List FsOp :=
  let a := pyLower (pyStrip (sel.pairAction dup))
  if a == "d" then [FsOp.remove dup.1]
  else if a == "d" then [FsOp.remove dup.2]
  else if a == "m" then
    let t := pyStrip (sel.pairMoveTarget dup)
    (if fs.pathExists t then [] else [FsOp.makedirs t]) ++ [FsOp.move dup.1 t]
  else if a == "m" then
    let t := pyStrip (sel.pairMoveTarget dup)
    (if fs.pathExists t then [] else [FsOp.makedirs t]) ++ [FsOp.move dup.2 t]
  else []

/-- One directory group of `handle_duplicates` (lines 175-252): skip,
delete every pair's first member, move every pair's first member, resolve
pair by pair, or — on any other reply — skip the directory (lines
250-252). -/
def handleGroup (fs : FS) (sel : Selector) (dirPath : String)
    (dups : List (String × String)) : List FsOp :=
  let a := pyLower (pyStrip (sel.groupAction dirPath))
  if a == "s" then []
  else if a == "d" then dups.map (fun dup => FsOp.remove dup.1)
  else if a == "m" then
    let t := pyStrip (sel.groupMoveTarget dirPath)
    (if fs.pathExists t then [] else [FsOp.makedirs t]) ++
      dups.map (fun dup => FsOp.move dup.1 t)
  else if a == "i" then dups.flatMap (handlePair fs sel)
  else []

/-- `handle_duplicates` over the grouped duplicates, as the concatenated
mutation lists of its directory groups. -/
def handle_duplicates (fs : FS) (sel : Selector)
    (grouped : List (String × List (String × String))) : List FsOp :=
  grouped.flatMap (fun g => handleGroup fs sel g.1 g.2)

/-- The paths of `d` carrying hash `h`, in iteration order; its head is
the first-seen path of `h`. -/
def pathsWith (h : String) (d : List (String × FileInfo)) : List String :=
  (d.filter (fun e => e.2.hash == h)).map Prod.fst

/-! Concrete fixtures used by the witnesses. -/

/-- A concrete digest function. -/
def xxhC : List Nat → String := fun _ => "H"

/-- Concrete `os.path` metadata functions. -/
def metaC : FileMeta := ⟨fun p => p, fun _ => 1, fun _ => 0⟩

/-- A filesystem where every path exists and no file is readable. -/
def fsTrue : FS := ⟨fun _ => true, fun _ => none⟩

/-- A selector that picks the individual mode and replies `D` (delete the
second member) at the pair level. -/
def selSecondD : Selector := ⟨fun _ => "i", fun _ => "D", fun _ => "t", fun _ => "t"⟩

/-- A selector that picks the individual mode and replies `M` (move the
second member) at the pair level. -/
def selSecondM : Selector := ⟨fun _ => "i", fun _ => "M", fun _ => "t", fun _ => "t"⟩

/-- A selector giving unrecognized replies at both levels. -/
def selJunk : Selector := ⟨fun _ => "junk", fun _ => "q", fun _ => "t", fun _ => "t"⟩

/-- A concrete checkpoint record with hash `H`. -/
def fiH : FileInfo := ⟨"n", "H", 1, 0⟩

/-- Concrete file contents: path `f` holds one byte, all other paths are
zero-length. -/
def contentC : String → Option (List Nat) := fun p => if p == "f" then some [1] else some []

/-!  Theorems.  -/

/-- C8: if the output location passed to `save_file_info` is an existing
directory, the report is written to `file_info_report.json` inside it and
the condition is reported via a warning; the call does not crash (it is a
total function producing exactly these two events). -/
theorem C8_save_directory_fallback (isDir : String → Bool)
    (d : List (String × FileInfo)) (out : String) (h : isDir out = true) :
    save_file_info isDir d out =
      [SaveEvent.warnDirectory out,
       SaveEvent.write (out ++ "/" ++ "file_info_report.json") d] := by
  simp [save_file_info, joinPath, h]

/-- Witness for C8 at a concrete directory. -/
theorem C8_save_directory_fallback_witness :
    (fun _ => true : String → Bool) "r" = true ∧
    save_file_info (fun _ => true) [] "r" =
      [SaveEvent.warnDirectory "r",
       SaveEvent.write ("r" ++ "/" ++ "file_info_report.json") []] :=
  ⟨rfl, C8_save_directory_fallback (fun _ => true) [] "r" rfl⟩

/-- C4: a path already present as a key of the loaded checkpoint mapping
is never among the pending paths submitted to `file_hash` workers, and
when every scanned path is already known no fingerprint computation
happens at all (`hashResults` over the pending paths is empty). -/
theorem C4_full_resume (xxh : List Nat → String)
    (content : String → Option (List Nat)) (filePaths : List String)
    (existing : List (String × FileInfo)) (p : String)
    (hp : p ∈ existing.map Prod.fst) :
    p ∉ pendingPaths filePaths existing ∧
    ((∀ q ∈ filePaths, q ∈ existing.map Prod.fst) →
      pendingPaths filePaths existing = [] ∧
      hashResults xxh content (pendingPaths filePaths existing) = []) := by
  constructor
  · intro hmem
    rw [pendingPaths, List.mem_filter] at hmem
    obtain ⟨e, he, hek⟩ := List.mem_map.mp hp
    have : existing.any (fun e => e.1 == p) = true :=
      List.any_eq_true.mpr ⟨e, he, by simp [hek]⟩
    simp [this] at hmem
  · intro hall
    have hnil : pendingPaths filePaths existing = [] := by
      rw [pendingPaths, List.filter_eq_nil_iff]
      intro q hq
      obtain ⟨e, he, hek⟩ := List.mem_map.mp (hall q hq)
      have : existing.any (fun e => e.1 == q) = true :=
        List.any_eq_true.mpr ⟨e, he, by simp [hek]⟩
      simp [this]
    exact ⟨hnil, by simp [hashResults, hnil]⟩

/-- Witness for C4: one directory already fully checkpointed. -/
theorem C4_full_resume_witness :
    "a" ∈ ([("a", fiH)] : List (String × FileInfo)).map Prod.fst ∧
    ("a" ∉ pendingPaths ["a"] [("a", fiH)] ∧
     ((∀ q ∈ ["a"], q ∈ ([("a", fiH)] : List (String × FileInfo)).map Prod.fst) →
       pendingPaths ["a"] [("a", fiH)] = [] ∧
       hashResults xxhC contentC (pendingPaths ["a"] [("a", fiH)]) = [])) :=
  ⟨by decide, C4_full_resume xxhC contentC ["a"] [("a", fiH)] "a" (by decide)⟩

/-- C6: an unrecognized selector reply causes no filesystem mutation: at
the group level the directory is skipped, at the pair level both files are
kept (the recognized normalised replies are `s`/`d`/`m`/`i` at the group
level and `k`/`d`/`m` at the pair level, `k` itself being the explicit
keep-both no-op). -/
theorem C6_unrecognized_is_safe (fs : FS) (sel : Selector) (dirPath : String)
    (dups : List (String × String)) (dup : String × String)
    (hg : pyLower (pyStrip (sel.groupAction dirPath)) ∉
      (["s", "d", "m", "i"] : List String))
    (hp : pyLower (pyStrip (sel.pairAction dup)) ∉
      (["k", "d", "m"] : List String)) :
    handleGroup fs sel dirPath dups = [] ∧ handlePair fs sel dup = [] := by
  simp only [List.mem_cons, List.not_mem_nil, or_false, not_or] at hg hp
  obtain ⟨hg1, hg2, hg3, hg4⟩ := hg
  obtain ⟨hp1, hp2, hp3⟩ := hp
  constructor
  · simp [handleGroup, beq_iff_eq, hg1, hg2, hg3, hg4]
  · simp [handlePair, beq_iff_eq, hp2, hp3]

/-- Witness for C6 at concrete unrecognized replies. -/
theorem C6_unrecognized_is_safe_witness :
    (pyLower (pyStrip (selJunk.groupAction "dir")) ∉
      (["s", "d", "m", "i"] : List String)) ∧
    (pyLower (pyStrip (selJunk.pairAction ("a", "b"))) ∉
      (["k", "d", "m"] : List String)) ∧
    (handleGroup fsTrue selJunk "dir" [("a", "b")] = [] ∧
     handlePair fsTrue selJunk ("a", "b") = []) :=
  ⟨by decide, by decide,
   C6_unrecognized_is_safe fsTrue selJunk "dir" [("a", "b")] ("a", "b")
     (by decide) (by decide)⟩

/-- C1: claimed that `DeleteSecond`/`MoveSecond` are reachable and act on
the second member of the pair.  In the code both `elif` tests at lines 217
and 236 repeat the conditions of lines 209 and 225 (and the reply is
lowercased first), so replying `D` deletes the FIRST member and replying
`M` moves the FIRST member; no reply ever touches the second member.  This
theorem evaluates the per-pair handler at the failing inputs. -/
theorem C1_second_member_branches_unreachable :
    handlePair fsTrue selSecondD ("f1", "f2") = [FsOp.remove "f1"] ∧
    FsOp.remove "f2" ∉ handlePair fsTrue selSecondD ("f1", "f2") ∧
    handlePair fsTrue selSecondM ("f1", "f2") = [FsOp.move "f1" "t"] ∧
    FsOp.move "f2" "t" ∉ handlePair fsTrue selSecondM ("f1", "f2") := by
  decide

/-- The report entry `verify_file_info` produces for one record, `none`
when the record is kept. -/
def verifyOutcome (fs : FS) (e : String × FileInfo) : Option VerifyReport :=
  if fs.pathExists e.1 then
    if fs.fhash e.1 == some e.2.hash then none
    else some (VerifyReport.hashChanged e.1)
  else some (VerifyReport.notFound e.1)

/-- Folding `verifyStep` is filtering the kept records and collecting the
per-record outcomes. -/
theorem foldl_verifyStep (fs : FS) (d : List (String × FileInfo))
    (a : List (String × FileInfo)) (b : List VerifyReport) :
    d.foldl (verifyStep fs) (a, b) =
      (a ++ d.filter (fun e => fs.pathExists e.1 && (fs.fhash e.1 == some e.2.hash)),
       b ++ d.filterMap (verifyOutcome fs)) := by
  induction d generalizing a b with
  | nil => simp
  | cons e rest ih =>
    rw [List.foldl_cons, verifyStep]
    by_cases h1 : fs.pathExists e.1
    · by_cases h2 : fs.fhash e.1 == some e.2.hash
      · simp [h1, h2, ih, List.filter_cons, List.filterMap_cons, verifyOutcome]
      · simp only [Bool.not_eq_true] at h2
        simp [h1, h2, ih, List.filter_cons, List.filterMap_cons, verifyOutcome]
    · simp only [Bool.not_eq_true] at h1
      simp [h1, ih, List.filter_cons, List.filterMap_cons, verifyOutcome]

/-- The full characterization of `verify_file_info`. -/
theorem verify_file_info_eq (fs : FS) (d : List (String × FileInfo)) :
    verify_file_info fs d =
      (d.filter (fun e => fs.pathExists e.1 && (fs.fhash e.1 == some e.2.hash)),
       d.filterMap (verifyOutcome fs)) := by
  simpa [verify_file_info] using foldl_verifyStep fs d [] []

/-- C5: `verify_file_info` keeps exactly the records whose file still
exists and whose recomputed fingerprint equals the stored hash; a missing
file is reported as `notFound` and a changed file as `hashChanged`, which
are distinct report categories, and both are dropped from the result. -/
theorem C5_verify_filters_and_reports (fs : FS)
    (d : List (String × FileInfo)) :
    verify_file_info fs d =
      (d.filter (fun e => fs.pathExists e.1 && (fs.fhash e.1 == some e.2.hash)),
       d.filterMap (fun e =>
        if fs.pathExists e.1 then
          if fs.fhash e.1 == some e.2.hash then none
          else some (VerifyReport.hashChanged e.1)
        else some (VerifyReport.notFound e.1))) :=
  verify_file_info_eq fs d

/-- C10: a file that still exists but cannot be read (its recomputed
fingerprint is `None`) is dropped from the verified mapping and reported
as `hashChanged`, never as `notFound`, because `None` compares unequal to
the stored hash. -/
theorem C10_unreadable_reports_hash_changed (fs : FS)
    (d : List (String × FileInfo)) (p : String) (info : FileInfo)
    (hmem : (p, info) ∈ d) (hex : fs.pathExists p = true)
    (hh : fs.fhash p = none) :
    p ∉ (verify_file_info fs d).1.map Prod.fst ∧
    VerifyReport.hashChanged p ∈ (verify_file_info fs d).2 ∧
    VerifyReport.notFound p ∉ (verify_file_info fs d).2 := by
  rw [verify_file_info_eq]
  refine ⟨?_, ?_, ?_⟩
  · intro hmap
    obtain ⟨e, he, hek⟩ := List.mem_map.mp hmap
    rw [List.mem_filter] at he
    have := he.2
    rw [hek, hex, hh] at this
    simp at this
  · refine List.mem_filterMap.mpr ⟨(p, info), hmem, ?_⟩
    simp [verifyOutcome, hex, hh]
  · intro hmap
    obtain ⟨e, he, hek⟩ := List.mem_filterMap.mp hmap
    rw [verifyOutcome] at hek
    by_cases h1 : fs.pathExists e.1
    · rw [if_pos h1] at hek
      by_cases h2 : fs.fhash e.1 == some e.2.hash
      · rw [if_pos h2] at hek
        exact Option.noConfusion hek
      · rw [if_neg h2] at hek
        exact VerifyReport.noConfusion (Option.some.inj hek)
    · rw [if_neg h1] at hek
      have : e.1 = p := VerifyReport.notFound.inj (Option.some.inj hek)
      rw [this] at h1
      exact h1 hex

/-- Witness for C10: one unreadable file. -/
theorem C10_unreadable_reports_hash_changed_witness :
    ((("u", fiH) ∈ ([("u", fiH)] : List (String × FileInfo))) ∧
     fsTrue.pathExists "u" = true ∧ fsTrue.fhash "u" = none) ∧
    ("u" ∉ (verify_file_info fsTrue [("u", fiH)]).1.map Prod.fst ∧
     VerifyReport.hashChanged "u" ∈ (verify_file_info fsTrue [("u", fiH)]).2 ∧
     VerifyReport.notFound "u" ∉ (verify_file_info fsTrue [("u", fiH)]).2) :=
  ⟨⟨by decide, rfl, rfl⟩,
   C10_unreadable_reports_hash_changed fsTrue [("u", fiH)] "u" fiH
     (by decide) rfl rfl⟩

/-- After any loop iteration whose resulting dictionary size is divisible
by the save interval, the temp file holds exactly that dictionary. -/
theorem processResult_saved (meta : FileMeta) (K : Nat) (s : CollectState)
    (r : String × Option String)
    (h : (processResult meta K s r).info.length % K = 0) :
    (processResult meta K s r).temp = (processResult meta K s r).info := by
  rw [processResult] at h ⊢
  by_cases hc : (mergeStep meta s.info r).length % K == 0
  · simp [hc]
  · simp only [hc, if_neg] at h ⊢
    simp only [Bool.not_eq_true, beq_eq_false_iff_ne] at hc
    exact absurd h hc

/-- The save invariant is maintained through the whole `as_completed`
loop. -/
theorem foldl_processResult_saved (meta : FileMeta) (K : Nat)
    (l : List (String × Option String)) (s : CollectState)
    (hs : s.info.length % K = 0 → s.temp = s.info) :
    (l.foldl (processResult meta K) s).info.length % K = 0 →
    (l.foldl (processResult meta K) s).temp =
      (l.foldl (processResult meta K) s).info := by
  induction l generalizing s with
  | nil => exact hs
  | cons r rest ih =>
    exact ih (processResult meta K s r) (processResult_saved meta K s r)

/-- C3: during `collect_file_info` the working dictionary is persisted
whenever its size is a multiple of the configured `save_interval` (the
periodic saves of lines 100-103, hence after every K merged records), and
once more after all workers complete (lines 106-107), so at every such
prefix of the completion sequence the temp file equals the in-memory
dictionary and the final temp-file content equals the returned mapping. -/
theorem C3_periodic_and_final_persistence (meta : FileMeta) (K : Nat)
    (existing : List (String × FileInfo))
    (pre post : List (String × Option String)) (hK : 0 < K)
    (hsave : (pre.foldl (processResult meta K)
        ⟨existing, existing⟩).info.length % K = 0) :
    (collect_file_info meta K existing (pre ++ post)).temp =
      (collect_file_info meta K existing (pre ++ post)).info ∧
    (pre.foldl (processResult meta K) ⟨existing, existing⟩).temp =
      (pre.foldl (processResult meta K) ⟨existing, existing⟩).info := by
  refine ⟨rfl, ?_⟩
  exact foldl_processResult_saved meta K pre ⟨existing, existing⟩
    (fun _ => rfl) hsave

/-- Witness for C3: two merges with interval 2, then one more result. -/
theorem C3_periodic_and_final_persistence_witness :
    (0 < 2 ∧
     (([("a", some "h"), ("b", some "h2")] :
        List (String × Option String)).foldl (processResult metaC 2)
        ⟨[], []⟩).info.length % 2 = 0) ∧
    ((collect_file_info metaC 2 []
        ([("a", some "h"), ("b", some "h2")] ++ [("c", some "h3")])).temp =
      (collect_file_info metaC 2 []
        ([("a", some "h"), ("b", some "h2")] ++ [("c", some "h3")])).info ∧
     (([("a", some "h"), ("b", some "h2")] :
        List (String × Option String)).foldl (processResult metaC 2)
        ⟨[], []⟩).temp =
      (([("a", some "h"), ("b", some "h2")] :
        List (String × Option String)).foldl (processResult metaC 2)
        ⟨[], []⟩).info) :=
  ⟨⟨by decide, by decide⟩,
   C3_periodic_and_final_persistence metaC 2 []
     [("a", some "h"), ("b", some "h2")] [("c", some "h3")]
     (by decide) (by decide)⟩

/-- Looking up an absent key returns nothing. -/
theorem lookup_eq_none_keys {β : Type*} (l : List (String × β)) (k : String)
    (h : k ∉ l.map Prod.fst) : l.lookup k = none := by
  induction l with
  | nil => rfl
  | cons e rest ih =>
    obtain ⟨e1, e2⟩ := e
    simp only [List.map_cons, List.mem_cons, not_or] at h
    simp [List.lookup_cons, beq_eq_false_iff_ne.mpr h.1, ih h.2]

/-- A successful lookup is a binding of the list. -/
theorem mem_of_lookup {β : Type*} (l : List (String × β)) (k : String)
    (v : β) (h : l.lookup k = some v) : (k, v) ∈ l := by
  induction l with
  | nil => simp [List.lookup_nil] at h
  | cons e rest ih =>
    obtain ⟨e1, e2⟩ := e
    rw [List.lookup_cons] at h
    cases hke : (k == e1) with
    | true =>
      rw [hke] at h
      have hk : k = e1 := eq_of_beq hke
      have hv : e2 = v := Option.some.inj h
      exact List.mem_cons.mpr (Or.inl (by rw [hk, hv]))
    | false =>
      rw [hke] at h
      exact List.mem_cons.mpr (Or.inr (ih h))

/-- With pairwise-distinct keys, every binding is found by lookup. -/
theorem lookup_of_mem_nodup {β : Type*} (l : List (String × β)) (k : String)
    (v : β) (hnd : (l.map Prod.fst).Nodup) (h : (k, v) ∈ l) :
    l.lookup k = some v := by
  induction l with
  | nil => simp at h
  | cons e rest ih =>
    obtain ⟨e1, e2⟩ := e
    simp only [List.map_cons, List.nodup_cons] at hnd
    rcases List.mem_cons.mp h with heq | hmem
    · have hk : k = e1 := congrArg Prod.fst heq
      have hv : v = e2 := congrArg Prod.snd heq
      subst hk
      subst hv
      simp [List.lookup_cons]
    · have hne : k ≠ e1 := by
        intro hk
        exact hnd.1 (List.mem_map.mpr ⟨(k, v), hmem, hk⟩)
      simp [List.lookup_cons, beq_eq_false_iff_ne.mpr hne, ih hnd.2 hmem]

/-- Lookup in a duplicate-free association list is invariant under
permutation. -/
theorem perm_lookup_eq {β : Type*} (l₁ l₂ : List (String × β)) (k : String)
    (hperm : l₁.Perm l₂) (hnd : (l₁.map Prod.fst).Nodup) :
    l₁.lookup k = l₂.lookup k := by
  have hnd2 : (l₂.map Prod.fst).Nodup := (hperm.map Prod.fst).nodup hnd
  cases h1 : l₁.lookup k with
  | none =>
    have hk : k ∉ l₁.map Prod.fst := by
      intro hk
      obtain ⟨e, he, hek⟩ := List.mem_map.mp hk
      obtain ⟨e1, e2⟩ := e
      simp only at hek
      rw [hek] at he
      rw [lookup_of_mem_nodup l₁ k e2 hnd he] at h1
      exact Option.noConfusion h1
    have hk2 : k ∉ l₂.map Prod.fst :=
      fun hmem => hk (((hperm.map Prod.fst).mem_iff).mpr hmem)
    exact (lookup_eq_none_keys l₂ k hk2).symm
  | some v =>
    exact (lookup_of_mem_nodup l₂ k v hnd2
      (hperm.mem_iff.mp (mem_of_lookup l₁ k v h1))).symm

/-- `dictInsert` binds the inserted key to the inserted value. -/
theorem lookup_dictInsert_self (d : List (String × FileInfo)) (k : String)
    (v : FileInfo) : (dictInsert d k v).lookup k = some v := by
  induction d with
  | nil => simp [dictInsert]
  | cons e rest ih =>
    obtain ⟨e1, e2⟩ := e
    rw [dictInsert]
    by_cases h : e1 = k
    · subst h
      simp [List.lookup_cons]
    · have h2 : (k == e1) = false := beq_eq_false_iff_ne.mpr (Ne.symm h)
      simp [beq_eq_false_iff_ne.mpr h, List.lookup_cons, h2, ih]

/-- `dictInsert` leaves every other key's binding unchanged. -/
theorem lookup_dictInsert_ne (d : List (String × FileInfo)) (k : String)
    (v : FileInfo) (k' : String) (h : k' ≠ k) :
    (dictInsert d k v).lookup k' = d.lookup k' := by
  induction d with
  | nil => simp [dictInsert, List.lookup_cons, beq_eq_false_iff_ne.mpr h]
  | cons e rest ih =>
    obtain ⟨e1, e2⟩ := e
    rw [dictInsert]
    by_cases he : (e1, e2).1 = k
    · simp only at he
      subst he
      simp [List.lookup_cons, beq_eq_false_iff_ne.mpr h]
    · simp only at he
      rw [if_neg (by simp [beq_eq_false_iff_ne.mpr he])]
      simp only [List.lookup_cons]
      cases hke : (k' == e1) <;> simp [ih]

/-- The `.info` component of the coordinator loop ignores the periodic
saves: it is the plain fold of `mergeStep`. -/
theorem info_foldl_processResult (meta : FileMeta) (K : Nat)
    (l : List (String × Option String)) (d t : List (String × FileInfo)) :
    (l.foldl (processResult meta K) ⟨d, t⟩).info =
      l.foldl (mergeStep meta) d := by
  induction l generalizing d t with
  | nil => rfl
  | cons r rest ih =>
    rw [List.foldl_cons, List.foldl_cons]
    simp only [processResult]
    by_cases hc : ((mergeStep meta d r).length % K == 0) = true
    · rw [if_pos hc]; exact ih _ _
    · rw [if_neg hc]; exact ih _ _

/-- Lookup after merging all completed results with pairwise-distinct
paths: a successfully hashed path maps to its fresh record, everything
else keeps its prior binding. -/
theorem lookup_foldl_mergeStep (meta : FileMeta)
    (completed : List (String × Option String))
    (existing : List (String × FileInfo)) (k : String)
    (hnd : (completed.map Prod.fst).Nodup) :
    (completed.foldl (mergeStep meta) existing).lookup k =
      match completed.lookup k with
      | some (some h) =>
          some ⟨meta.basename k, h, meta.getsize k, meta.getmtime k⟩
      | some none => existing.lookup k
      | none => existing.lookup k := by
  induction completed generalizing existing with
  | nil => rfl
  | cons r rest ih =>
    obtain ⟨p, hres⟩ := r
    simp only [List.map_cons, List.nodup_cons] at hnd
    rw [List.foldl_cons, ih _ hnd.2]
    by_cases hkp : k = p
    · subst hkp
      have hrest : rest.lookup k = none := lookup_eq_none_keys rest k hnd.1
      rw [hrest, List.lookup_cons]
      simp only [BEq.refl]
      cases hres with
      | some h => simp [mergeStep, lookup_dictInsert_self]
      | none => simp [mergeStep]
    · have hne : (k == p) = false := beq_eq_false_iff_ne.mpr hkp
      have hex : (mergeStep meta existing (p, hres)).lookup k =
          existing.lookup k := by
        cases hres with
        | some h => simp [mergeStep, lookup_dictInsert_ne _ _ _ _ hkp]
        | none => rfl
      rw [List.lookup_cons]
      cases hr : rest.lookup k with
      | none => simp [hr, hex, hne]
      | some o => cases o <;> simp [hr, hex, hne]

/-- C7: the mapping returned by `collect_file_info` is independent of the
order in which worker results complete: two permuted completion sequences
over pairwise-distinct paths produce dictionaries agreeing on every
lookup (Python dict equality), because each merge is keyed by the path. -/
theorem C7_completion_order_irrelevant (meta : FileMeta) (K : Nat)
    (existing : List (String × FileInfo))
    (l₁ l₂ : List (String × Option String)) (k : String)
    (hperm : l₁.Perm l₂) (hnd : (l₁.map Prod.fst).Nodup) :
    (collect_file_info meta K existing l₁).info.lookup k =
      (collect_file_info meta K existing l₂).info.lookup k := by
  have h1 : (collect_file_info meta K existing l₁).info =
      l₁.foldl (mergeStep meta) existing :=
    info_foldl_processResult meta K l₁ existing existing
  have h2 : (collect_file_info meta K existing l₂).info =
      l₂.foldl (mergeStep meta) existing :=
    info_foldl_processResult meta K l₂ existing existing
  rw [h1, h2, lookup_foldl_mergeStep meta l₁ existing k hnd,
    lookup_foldl_mergeStep meta l₂ existing k ((hperm.map Prod.fst).nodup hnd),
    perm_lookup_eq l₁ l₂ k hperm hnd]

/-- Witness for C7: two completion orders of the same two results. -/
theorem C7_completion_order_irrelevant_witness :
    (([("a", some "h"), ("b", some "g")] :
        List (String × Option String)).Perm
        [("b", some "g"), ("a", some "h")] ∧
     (([("a", some "h"), ("b", some "g")] :
        List (String × Option String)).map Prod.fst).Nodup) ∧
    (collect_file_info metaC 2 [] [("a", some "h"), ("b", some "g")]).info.lookup "a" =
      (collect_file_info metaC 2 [] [("b", some "g"), ("a", some "h")]).info.lookup "a" :=
  ⟨⟨List.Perm.swap ("b", some "g") ("a", some "h") [], by decide⟩,
   C7_completion_order_irrelevant metaC 2 []
     [("a", some "h"), ("b", some "g")] [("b", some "g"), ("a", some "h")] "a"
     (List.Perm.swap ("b", some "g") ("a", some "h") []) (by decide)⟩

/-- Every emitted pair's first component is a key of the scanned
dictionary. -/
theorem mem_findDupsAux_fst (d : List (String × FileInfo))
    (A : List (String × String)) (pr : String × String)
    (h : pr ∈ findDupsAux A d) : pr.1 ∈ d.map Prod.fst := by
  induction d generalizing A with
  | nil => simp [findDupsAux] at h
  | cons e rest ih =>
    obtain ⟨p, info⟩ := e
    simp only [findDupsAux] at h
    cases hl : A.lookup info.hash with
    | some fp =>
      rw [hl] at h
      rcases List.mem_cons.mp h with heq | hmem
      · simp [heq]
      · exact List.mem_cons.mpr (Or.inr (ih A hmem))
    | none =>
      rw [hl] at h
      exact List.mem_cons.mpr (Or.inr (ih _ h))

/-- A head path absent from the dictionary can be dropped from the
membership filter over the emitted pairs. -/
theorem filter_findDupsAux_cons (A : List (String × String))
    (d : List (String × FileInfo)) (p : String) (S : List String)
    (hnd : p ∉ d.map Prod.fst) :
    (findDupsAux A d).filter (fun pr => (p :: S).contains pr.1) =
      (findDupsAux A d).filter (fun pr => S.contains pr.1) := by
  apply List.filter_congr
  intro pr hpr
  have h1 : pr.1 ∈ d.map Prod.fst := mem_findDupsAux_fst d A pr hpr
  have hne : pr.1 ≠ p := fun he => hnd (he ▸ h1)
  simp only [List.contains_cons, beq_eq_false_iff_ne.mpr hne, Bool.false_or]

/-- Unfolding `pathsWith` over a cons cell. -/
theorem pathsWith_cons (h p : String) (info : FileInfo)
    (rest : List (String × FileInfo)) :
    pathsWith h ((p, info) :: rest) =
      if info.hash == h then p :: pathsWith h rest else pathsWith h rest := by
  by_cases hh : (info.hash == h) = true
  · simp [pathsWith, List.filter_cons, hh]
  · simp [pathsWith, List.filter_cons, hh]

/-- Paths carrying a hash are keys of the dictionary. -/
theorem pathsWith_subset_keys (h : String) (d : List (String × FileInfo))
    (q : String) (hq : q ∈ pathsWith h d) : q ∈ d.map Prod.fst := by
  rw [pathsWith] at hq
  obtain ⟨e, he, hek⟩ := List.mem_map.mp hq
  exact List.mem_map.mpr ⟨e, (List.mem_filter.mp he).1, hek⟩

/-- When the accumulator already maps hash `h` to first-seen path `q`,
every later path with hash `h` is emitted paired with `q`. -/
theorem findDupsAux_filter_known (d : List (String × FileInfo))
    (A : List (String × String)) (h q : String)
    (hA : A.lookup h = some q) (hnd : (d.map Prod.fst).Nodup) :
    (findDupsAux A d).filter (fun pr => (pathsWith h d).contains pr.1) =
      (pathsWith h d).map (fun p => (p, q)) := by
  induction d generalizing A with
  | nil => simp [findDupsAux, pathsWith]
  | cons e rest ih =>
    obtain ⟨p, info⟩ := e
    simp only [List.map_cons, List.nodup_cons] at hnd
    rw [pathsWith_cons]
    by_cases hh : info.hash = h
    · rw [if_pos (by simp [hh])]
      simp only [findDupsAux, hh, hA]
      rw [List.filter_cons, if_pos (by simp [List.contains_cons])]
      rw [filter_findDupsAux_cons A rest p (pathsWith h rest) hnd.1]
      rw [ih A hA hnd.2, List.map_cons]
    · rw [if_neg (by simp [hh])]
      have hnm : p ∉ pathsWith h rest :=
        fun hm => hnd.1 (pathsWith_subset_keys h rest p hm)
      cases hl : A.lookup info.hash with
      | some fp =>
        simp only [findDupsAux, hl]
        rw [List.filter_cons, if_neg (by simp [hnm])]
        exact ih A hA hnd.2
      | none =>
        simp only [findDupsAux, hl]
        have hA2 : ((info.hash, p) :: A).lookup h = some q := by
          rw [List.lookup_cons]
          rw [beq_eq_false_iff_ne.mpr (fun he => hh he.symm)]
          exact hA
        exact ih _ hA2 hnd.2

/-- When hash `h` is not yet in the accumulator, its group of N paths
produces exactly the fan of N-1 pairs against its first-seen path. -/
theorem findDupsAux_filter_fresh (d : List (String × FileInfo))
    (A : List (String × String)) (h : String)
    (hA : A.lookup h = none) (hnd : (d.map Prod.fst).Nodup) :
    (findDupsAux A d).filter (fun pr => (pathsWith h d).contains pr.1) =
      match pathsWith h d with
      | [] => []
      | p₀ :: ps => ps.map (fun p => (p, p₀)) := by
  induction d generalizing A with
  | nil => simp [findDupsAux, pathsWith]
  | cons e rest ih =>
    obtain ⟨p, info⟩ := e
    simp only [List.map_cons, List.nodup_cons] at hnd
    rw [pathsWith_cons]
    by_cases hh : info.hash = h
    · rw [if_pos (by simp [hh])]
      simp only [findDupsAux, hh, hA]
      have hA2 : ((h, p) :: A).lookup h = some p := by
        rw [List.lookup_cons]
        simp
      rw [filter_findDupsAux_cons _ rest p (pathsWith h rest) hnd.1]
      rw [findDupsAux_filter_known rest ((h, p) :: A) h p hA2 hnd.2]
    · rw [if_neg (by simp [hh])]
      have hnm : p ∉ pathsWith h rest :=
        fun hm => hnd.1 (pathsWith_subset_keys h rest p hm)
      cases hl : A.lookup info.hash with
      | some fp =>
        simp only [findDupsAux, hl]
        rw [List.filter_cons, if_neg (by simp [hnm])]
        exact ih A hA hnd.2
      | none =>
        simp only [findDupsAux, hl]
        have hA2 : ((info.hash, p) :: A).lookup h = none := by
          rw [List.lookup_cons]
          rw [beq_eq_false_iff_ne.mpr (fun he => hh he.symm)]
          exact hA
        exact ih _ hA2 hnd.2

/-- C2: for a checkpoint mapping with pairwise-distinct paths where N ≥ 2
paths share hash `h`, the duplicate pairs among those paths are exactly
the N-1 pairs `(laterPath, firstSeenPath)` with `firstSeenPath` the first
path of `h` in iteration order; two later duplicates are never paired
with each other. -/
theorem C2_fan_of_pairs (d : List (String × FileInfo)) (h p₀ : String)
    (ps : List String) (hnd : (d.map Prod.fst).Nodup)
    (hp : pathsWith h d = p₀ :: ps) (hN : 2 ≤ (pathsWith h d).length) :
    (find_duplicates_from_info d).filter
        (fun pr => (pathsWith h d).contains pr.1) =
      ps.map (fun p => (p, p₀)) ∧
    ((find_duplicates_from_info d).filter
        (fun pr => (pathsWith h d).contains pr.1)).length =
      (pathsWith h d).length - 1 := by
  have hmain := findDupsAux_filter_fresh d [] h rfl hnd
  rw [hp] at hmain
  rw [find_duplicates_from_info, hp]
  exact ⟨hmain, by rw [hmain]; simp⟩

/-- Witness for C2: three files sharing one hash. -/
theorem C2_fan_of_pairs_witness :
    ((([("a", fiH), ("b", fiH), ("c", fiH)] :
        List (String × FileInfo)).map Prod.fst).Nodup ∧
     pathsWith "H" [("a", fiH), ("b", fiH), ("c", fiH)] = ["a", "b", "c"] ∧
     2 ≤ (pathsWith "H" [("a", fiH), ("b", fiH), ("c", fiH)]).length) ∧
    ((find_duplicates_from_info [("a", fiH), ("b", fiH), ("c", fiH)]).filter
        (fun pr =>
          (pathsWith "H" [("a", fiH), ("b", fiH), ("c", fiH)]).contains pr.1) =
      [("b", "a"), ("c", "a")] ∧
     ((find_duplicates_from_info [("a", fiH), ("b", fiH), ("c", fiH)]).filter
        (fun pr =>
          (pathsWith "H" [("a", fiH), ("b", fiH), ("c", fiH)]).contains pr.1)).length =
      (pathsWith "H" [("a", fiH), ("b", fiH), ("c", fiH)]).length - 1) :=
  ⟨⟨by decide, by decide, by decide⟩,
   C2_fan_of_pairs [("a", fiH), ("b", fiH), ("c", fiH)] "H" "a" ["b", "c"]
     (by decide) (by decide) (by decide)⟩

/-- A key of `dictInsert d k v` is a key of `d` or the inserted key. -/
theorem mem_keys_dictInsert (d : List (String × FileInfo)) (k : String)
    (v : FileInfo) (k' : String)
    (h : k' ∈ (dictInsert d k v).map Prod.fst) :
    k' ∈ d.map Prod.fst ∨ k' = k := by
  induction d with
  | nil =>
    simp [dictInsert] at h
    exact Or.inr h
  | cons e rest ih =>
    obtain ⟨e1, e2⟩ := e
    rw [dictInsert] at h
    by_cases he : e1 = k
    · rw [if_pos (by simp [he])] at h
      simp only [List.map_cons, List.mem_cons] at h ⊢
      rcases h with h | h
      · exact Or.inr h
      · exact Or.inl (Or.inr h)
    · rw [if_neg (by simp [beq_eq_false_iff_ne.mpr he])] at h
      simp only [List.map_cons, List.mem_cons] at h ⊢
      rcases h with h | h
      · exact Or.inl (Or.inl h)
      · rcases ih h with h2 | h2
        · exact Or.inl (Or.inr h2)
        · exact Or.inr h2

/-- A key of the merged dictionary was a key of the loaded dictionary or
comes from a successfully hashed completed result. -/
theorem mem_keys_foldl_mergeStep (meta : FileMeta)
    (completed : List (String × Option String))
    (existing : List (String × FileInfo)) (k : String)
    (h : k ∈ (completed.foldl (mergeStep meta) existing).map Prod.fst) :
    k ∈ existing.map Prod.fst ∨ ∃ hh, (k, some hh) ∈ completed := by
  induction completed generalizing existing with
  | nil => exact Or.inl h
  | cons r rest ih =>
    obtain ⟨p, hres⟩ := r
    rw [List.foldl_cons] at h
    rcases ih (mergeStep meta existing (p, hres)) h with h1 | h1
    · cases hres with
      | some hh =>
        rcases mem_keys_dictInsert existing p _ k h1 with h2 | h2
        · exact Or.inl h2
        · exact Or.inr ⟨hh, List.mem_cons.mpr (Or.inl (by rw [h2]))⟩
      | none => exact Or.inl h1
    · obtain ⟨hh, hmem⟩ := h1
      exact Or.inr ⟨hh, List.mem_cons.mpr (Or.inr hmem)⟩

/-- Every emitted pair's second component is a key of the scanned
dictionary or a first-seen path recorded in the accumulator. -/
theorem mem_findDupsAux_snd (d : List (String × FileInfo))
    (A : List (String × String)) (pr : String × String)
    (h : pr ∈ findDupsAux A d) :
    pr.2 ∈ d.map Prod.fst ∨ ∃ hh, (hh, pr.2) ∈ A := by
  induction d generalizing A with
  | nil => simp [findDupsAux] at h
  | cons e rest ih =>
    obtain ⟨p, info⟩ := e
    simp only [findDupsAux] at h
    cases hl : A.lookup info.hash with
    | some fp =>
      rw [hl] at h
      rcases List.mem_cons.mp h with heq | hmem
      · refine Or.inr ⟨info.hash, ?_⟩
        have : pr.2 = fp := congrArg Prod.snd heq
        rw [this]
        exact mem_of_lookup A info.hash fp hl
      · rcases ih A hmem with h1 | h1
        · exact Or.inl (List.mem_cons.mpr (Or.inr h1))
        · exact Or.inr h1
    | none =>
      rw [hl] at h
      rcases ih ((info.hash, p) :: A) h with h1 | h1
      · exact Or.inl (List.mem_cons.mpr (Or.inr h1))
      · obtain ⟨hh, hmem⟩ := h1
        rcases List.mem_cons.mp hmem with heq | hA
        · refine Or.inl ?_
          have : pr.2 = p := congrArg Prod.snd heq
          simp [List.map_cons, this]
        · exact Or.inr ⟨hh, hA⟩

/-- C9: `file_hash` returns `None` on a zero-length file (the mmap of an
empty file fails), so an empty file is never merged into the checkpoint
mapping and never appears — on either side — in a reported duplicate
pair, whatever order the worker results complete in. -/
theorem C9_empty_file_never_reported (xxh : List Nat → String)
    (meta : FileMeta) (K : Nat) (content : String → Option (List Nat))
    (filePaths : List String) (existing : List (String × FileInfo))
    (completed : List (String × Option String)) (p q : String)
    (hperm : completed.Perm
      (hashResults xxh content (pendingPaths filePaths existing)))
    (hcontent : content p = some [])
    (hold : p ∉ existing.map Prod.fst) :
    file_hash xxh (content p) = none ∧
    p ∉ (collect_file_info meta K existing completed).info.map Prod.fst ∧
    (p, q) ∉ find_duplicates_from_info
      (collect_file_info meta K existing completed).info ∧
    (q, p) ∉ find_duplicates_from_info
      (collect_file_info meta K existing completed).info := by
  have hfh : file_hash xxh (content p) = none := by rw [hcontent]; rfl
  have hinfo : (collect_file_info meta K existing completed).info =
      completed.foldl (mergeStep meta) existing :=
    info_foldl_processResult meta K completed existing existing
  have hkey :
      p ∉ (collect_file_info meta K existing completed).info.map Prod.fst := by
    rw [hinfo]
    intro hmem
    rcases mem_keys_foldl_mergeStep meta completed existing p hmem with h1 | h1
    · exact hold h1
    · obtain ⟨hh, hmem2⟩ := h1
      have hres : (p, some hh) ∈
          hashResults xxh content (pendingPaths filePaths existing) :=
        hperm.mem_iff.mp hmem2
      obtain ⟨r, hr, hrEq⟩ := List.mem_map.mp hres
      have hr1 : r = p := congrArg Prod.fst hrEq
      have hr2 : file_hash xxh (content r) = some hh := congrArg Prod.snd hrEq
      rw [hr1, hfh] at hr2
      exact Option.noConfusion hr2
  refine ⟨hfh, hkey, ?_, ?_⟩
  · intro hpair
    exact hkey (mem_findDupsAux_fst _ [] (p, q) hpair)
  · intro hpair
    rcases mem_findDupsAux_snd _ [] (q, p) hpair with h1 | h1
    · exact hkey h1
    · obtain ⟨hh, hmem⟩ := h1
      simp at hmem

/-- Witness for C9: two empty files and one nonempty file. -/
theorem C9_empty_file_never_reported_witness :
    ((hashResults xxhC contentC (pendingPaths ["e1", "e2", "f"] [])).Perm
        (hashResults xxhC contentC (pendingPaths ["e1", "e2", "f"] [])) ∧
     contentC "e1" = some [] ∧
     "e1" ∉ ([] : List (String × FileInfo)).map Prod.fst) ∧
    (file_hash xxhC (contentC "e1") = none ∧
     "e1" ∉ (collect_file_info metaC 2 []
        (hashResults xxhC contentC
          (pendingPaths ["e1", "e2", "f"] []))).info.map Prod.fst ∧
     ("e1", "e2") ∉ find_duplicates_from_info
        (collect_file_info metaC 2 []
          (hashResults xxhC contentC
            (pendingPaths ["e1", "e2", "f"] []))).info ∧
     ("e2", "e1") ∉ find_duplicates_from_info
        (collect_file_info metaC 2 []
          (hashResults xxhC contentC
            (pendingPaths ["e1", "e2", "f"] []))).info) :=
  ⟨⟨List.Perm.refl _, rfl, by decide⟩,
   C9_empty_file_never_reported xxhC metaC 2 contentC ["e1", "e2", "f"] []
     (hashResults xxhC contentC (pendingPaths ["e1", "e2", "f"] []))
     "e1" "e2" (List.Perm.refl _) rfl (by decide)⟩

end Dups
